import Mathlib

/-
Verification of the nicop repeating-key XOR cipher (src/nicop/src/main.rs).

The Rust program is embedded shallowly:
- a Rust String is modelled as the list of its Unicode scalar values (Nat);
- a Vec<Vec<u8>> of byte pairs is modelled as a list of Nat pairs, each
  component kept below 256 by the operations that produce it;
- u16 / u8 arithmetic is modelled on Nat with explicit masking where the
  source masks;
- String::from_utf16 / encode_utf16 are modelled by an executable UTF-16
  decoder / encoder over scalar values;
- HashMap<char, u32> is modelled as an association list; iteration order of
  the map is arbitrary, so theorems about map scans quantify over the list.
-/

namespace Nicop

/-- A Rust String, modelled as the list of its Unicode scalar values. -/
abbrev RStr := List Nat

/-- UTF-16 encoding of one Unicode scalar value (char::encode_utf16):
a scalar below 0x10000 is a single code unit, otherwise a surrogate pair. -/
def encodeUtf16Char (c : Nat) : List Nat :=
  if c < 0x10000 then [c]
  else [0xD800 + (c - 0x10000) / 0x400, 0xDC00 + (c - 0x10000) % 0x400]

/-- str::encode_utf16: the UTF-16 code units of a string, in order. -/
def encodeUtf16 (s : RStr) : List Nat :=
  s.flatMap encodeUtf16Char

/-- UTF-16 decoding (String::from_utf16): a non-surrogate unit stands for
itself, a high surrogate must be followed by a low surrogate, and any lone
surrogate is a decode error (none). -/
def decodeUtf16 : List Nat → Option (List Nat)
  | [] => some []
  | [u] =>
      if u < 0xD800 ∨ 0xE000 ≤ u then some [u] else none
  | u :: u2 :: rest =>
      if u < 0xD800 ∨ 0xE000 ≤ u then
        (decodeUtf16 (u2 :: rest)).map (fun t => u :: t)
      else if u < 0xDC00 then
        if 0xDC00 ≤ u2 ∧ u2 < 0xE000 then
          (decodeUtf16 rest).map
            (fun t => (0x10000 + (u - 0xD800) * 0x400 + (u2 - 0xDC00)) :: t)
        else none
      else none

/-- u16::to_be_bytes: the big-endian byte pair of a 16-bit value. -/
def u16ToBeBytes (u : Nat) : Nat × Nat :=
  (u / 256 % 256, u % 256)

/-- u8::checked_shl on a masked byte: the shifted value when the shift
amount is below the bit width 8, none otherwise. -/
def u8CheckedShl (b : Nat) (n : Nat) : Option Nat :=
  if n < 8 then some (b * 2 ^ n % 256) else none

/-- The message type: the byte pairs and the decoded text
(struct Message { bytes, text }). -/
structure Message where
  bytes : List (Nat × Nat)
  text : RStr
deriving DecidableEq, Repr

/-- Message::from_string: encode the text as UTF-16 code units and split
each unit into its big-endian byte pair. -/
def Message.from_string (text : RStr) : Message :=
  { bytes := (encodeUtf16 text).map u16ToBeBytes, text := text }

/-- The code units rebuilt by Message::from_bytes: for each pair,
(bytes[i][0] & 0xff).checked_shl(8).unwrap_or(0) | (bytes[i][1] & 0xff). -/
def reassembleUnits (bytes : List (Nat × Nat)) : List Nat :=
  bytes.map (fun p => ((u8CheckedShl (p.1 &&& 0xFF) 8).getD 0) ||| (p.2 &&& 0xFF))

/-- Message::from_bytes: rebuild the code units, decode them as UTF-16 and
substitute the empty string on decode failure (unwrap_or(String::new())). -/
def Message.from_bytes (bytes : List (Nat × Nat)) : Message :=
  { bytes := bytes, text := (decodeUtf16 (reassembleUnits bytes)).getD [] }

/-- The key type: a sequence of byte pairs, 4 slots in every use
(struct Key { bytes }). -/
structure Key where
  bytes : List (Nat × Nat)
deriving DecidableEq, Repr

/-- Key::from_bytes: wrap externally computed bytes. -/
def Key.from_bytes (bytes : List (Nat × Nat)) : Key :=
  { bytes := bytes }

/-- The loop body of encrypt: byte pair number i is XORed component-wise
against key slot i mod 4. -/
def xorWithKey (key : Key) : Nat → List (Nat × Nat) → List (Nat × Nat)
  | _, [] => []
  | i, b :: rest =>
      let kb := key.bytes.getD (i % 4) (0, 0)
      (b.1 ^^^ kb.1, b.2 ^^^ kb.2) :: xorWithKey key (i + 1) rest

/-- encrypt: XOR every byte pair against the cycled key and rebuild a
Message from the resulting pairs (Message::from_bytes). -/
def encrypt (message : Message) (key : Key) : Message :=
  Message.from_bytes (xorWithKey key 0 message.bytes)

/-- decrypt: the same operation as encrypt. -/
def decrypt (message : Message) (key : Key) : Message :=
  encrypt message key

/-- The frequency table: four character-to-count mappings, one per key
slot; each HashMap is modelled as an association list. -/
structure FreqTable where
  frequencies : List (List (Nat × Nat))
deriving DecidableEq, Repr

/-- FreqTable::new: four empty mappings. -/
def FreqTable.new : FreqTable :=
  { frequencies := List.replicate 4 [] }

/-- HashMap entry(ch).or_insert(0) += 1 on an association list: bump the
count of ch if present, append it with count 1 otherwise. -/
def mapAdd : List (Nat × Nat) → Nat → List (Nat × Nat)
  | [], c => [(c, 1)]
  | (d, n) :: rest, c =>
      if d = c then (d, n + 1) :: rest else (d, n) :: mapAdd rest c

/-- FreqTable::add: increment the count of ch in mapping table_index. -/
def FreqTable.add (t : FreqTable) (table_index : Nat) (ch : Nat) : FreqTable :=
  { frequencies :=
      t.frequencies.set table_index (mapAdd (t.frequencies.getD table_index []) ch) }

/-- One step of the scan in get_most_frequent_chars: keep the entry when
its count strictly exceeds the running maximum. -/
def freqStep (acc e : Nat × Nat) : Nat × Nat :=
  if acc.2 < e.2 then e else acc

/-- The per-slot scan of get_most_frequent_chars: running pair starts at
(space, 0) and each entry with a strictly greater count replaces it. -/
def slotMostFrequent (m : List (Nat × Nat)) : Nat :=
  (m.foldl freqStep (0x20, 0)).1

/-- FreqTable::get_most_frequent_chars: the per-slot scan applied to each
of the four mappings. -/
def FreqTable.get_most_frequent_chars (t : FreqTable) : List Nat :=
  t.frequencies.map slotMostFrequent

/-- char::is_alphanumeric restricted to the ASCII range, where it holds
exactly on digits and Latin letters; outside ASCII the behaviour is the
parameter ext (the normalizer only applies it after its ASCII filter). -/
def charIsAlphanumeric (ext : Nat → Bool) (c : Nat) : Bool :=
  if c < 0x80 then
    decide ((0x30 ≤ c ∧ c ≤ 0x39) ∨ (0x41 ≤ c ∧ c ≤ 0x5A) ∨ (0x61 ≤ c ∧ c ≤ 0x7A))
  else ext c

/-- str::to_uppercase on one character, restricted to the ASCII range,
where it maps a lowercase letter 32 down and fixes everything else;
outside ASCII the behaviour is the parameter ext. -/
def charToUppercase (ext : Nat → List Nat) (c : Nat) : List Nat :=
  if c < 0x80 then [if 0x61 ≤ c ∧ c ≤ 0x7A then c - 0x20 else c] else ext c

/-- format_contents: NFD decomposition, then drop every non-ASCII
character, then drop every non-alphanumeric character, then uppercase.
The NFD map and the non-ASCII behaviour of the std character functions
live outside this repository, so they are parameters. -/
def format_contents (nfd : RStr → RStr) (alnumExt : Nat → Bool)
    (upperExt : Nat → List Nat) (contents : RStr) : RStr :=
  ((((nfd contents).filter (fun c => decide (c < 0x80))).filter
      (charIsAlphanumeric alnumExt)).flatMap (charToUppercase upperExt))

/-- Modelled from the spec: Unicode canonical decomposition (NFD), from the
unicode_normalization crate, which is not part of this repository. Covers
the code points exercised by the end-to-end scenario: characters other
than U+00E9 used there are NFD-inert, and U+00E9 decomposes to U+0065
followed by the combining acute accent U+0301. -/
def nfdChar (c : Nat) : List Nat :=
  if c = 0xE9 then [0x65, 0x301] else [c]

/-- Modelled from the spec: NFD of a whole string, character by character. -/
def nfd_model (s : RStr) : RStr :=
  s.flatMap nfdChar

/-- The normalizer instantiated with the modelled NFD; the non-ASCII
parameters are irrelevant because the ASCII filter runs first. -/
def format_contents_model (contents : RStr) : RStr :=
  format_contents nfd_model (fun _ => false) (fun c => [c]) contents

/-- analyze_chars_frequencies: add character i of the contents to slot
i mod 4, then take the per-slot most frequent characters. -/
def analyze_chars_frequencies (freq_table : FreqTable) (contents : RStr) : List Nat :=
  FreqTable.get_most_frequent_chars
    ((List.range contents.length).foldl
      (fun t i => t.add (i % 4) (contents.getD i 0)) freq_table)

/-- The key-recovery loop of main: slot i of the guessed key is the byte
pair of the letter E XORed against the byte pair of the most frequent
character of slot i. -/
def recoverKeyBytes (most_freq_chars : List Nat) : List (Nat × Nat) :=
  let e_bytes := (Message.from_string [0x45]).bytes
  (List.range most_freq_chars.length).foldl
    (fun acc i =>
      let cb := (Message.from_string [most_freq_chars.getD i 0]).bytes
      acc.set i
        ((e_bytes.getD 0 (0, 0)).1 ^^^ (cb.getD 0 (0, 0)).1,
         (e_bytes.getD 0 (0, 0)).2 ^^^ (cb.getD 0 (0, 0)).2))
    (List.replicate 4 (0, 0))

/-! Helper lemmas. -/

lemma getD_map_lt {α β : Type} (f : α → β) :
    ∀ (l : List α) (j : Nat), j < l.length → ∀ (a : α) (b : β),
      (l.map f).getD j b = f (l.getD j a)
  | [], j, hj, _, _ => absurd hj (by simp)
  | _ :: _, 0, _, _, _ => rfl
  | _ :: tl, j + 1, hj, a, b => by
      have h := getD_map_lt f tl j (by simpa using hj) a b
      simpa using h

lemma decodeUtf16_of_lt : ∀ us : List Nat, (∀ u ∈ us, u < 0xD800) →
    decodeUtf16 us = some us
  | [], _ => rfl
  | [u], h => by
      have hu : u < 0xD800 := h u (by simp)
      simp [decodeUtf16, hu]
  | u :: u2 :: rest, h => by
      have hu : u < 0xD800 := h u (by simp)
      have ih := decodeUtf16_of_lt (u2 :: rest) (fun v hv => h v (by simp [hv]))
      simp [decodeUtf16, hu, ih]

lemma reassembleUnits_eq (bytes : List (Nat × Nat)) :
    reassembleUnits bytes = bytes.map (fun p => p.2 &&& 0xFF) := by
  unfold reassembleUnits u8CheckedShl
  simp [Nat.zero_or]

lemma foldl_freqStep_acc_or_mem : ∀ (m : List (Nat × Nat)) (acc : Nat × Nat),
    m.foldl freqStep acc = acc ∨ m.foldl freqStep acc ∈ m
  | [], _ => Or.inl rfl
  | e :: tl, acc => by
      rcases foldl_freqStep_acc_or_mem tl (freqStep acc e) with h | h
      · rw [List.foldl_cons, h]
        unfold freqStep
        split
        · right; simp
        · left; rfl
      · right
        rw [List.foldl_cons]
        exact List.mem_cons_of_mem _ h

lemma foldl_freqStep_ge : ∀ (m : List (Nat × Nat)) (acc : Nat × Nat),
    acc.2 ≤ (m.foldl freqStep acc).2 ∧ ∀ p ∈ m, p.2 ≤ (m.foldl freqStep acc).2
  | [], _ => ⟨le_refl _, by simp⟩
  | e :: tl, acc => by
      obtain ⟨h1, h2⟩ := foldl_freqStep_ge tl (freqStep acc e)
      have hacc : acc.2 ≤ (freqStep acc e).2 := by
        unfold freqStep; split <;> omega
      have he : e.2 ≤ (freqStep acc e).2 := by
        unfold freqStep; split <;> omega
      refine ⟨?_, ?_⟩
      · rw [List.foldl_cons]
        exact le_trans hacc h1
      · intro p hp
        rw [List.foldl_cons]
        rcases List.mem_cons.mp hp with h | h
        · subst h; exact le_trans he h1
        · exact h2 p h

lemma slotMostFrequent_unique_max (m : List (Nat × Nat)) (c n : Nat)
    (hmem : (c, n) ∈ m) (hn : 0 < n)
    (hmax : ∀ p ∈ m, p.1 ≠ c → p.2 < n) :
    slotMostFrequent m = c := by
  unfold slotMostFrequent
  obtain ⟨_, h2⟩ := foldl_freqStep_ge m (0x20, 0)
  have hn2 : n ≤ (m.foldl freqStep (0x20, 0)).2 := h2 (c, n) hmem
  rcases foldl_freqStep_acc_or_mem m (0x20, 0) with h | h
  · exfalso
    rw [h] at hn2
    simp at hn2
    omega
  · by_contra hne
    have hlt := hmax _ h hne
    omega

/-! Claim theorems. -/

/-- Claim C1: the claim says each byte pair is reassembled into the 16-bit
unit 256 * byte0 + byte1. The code applies checked_shl(8) to an 8-bit
value, which always overflows and is replaced by 0, so the pair (1, 0),
which the claim reassembles to 256, is reassembled to 0 and decodes to the
NUL character instead of U+0100. -/
theorem from_bytes_drops_high_byte :
    reassembleUnits [(1, 0)] = [0] ∧ (Message.from_bytes [(1, 0)]).text = [0] := by
  refine ⟨by decide, by decide⟩

/-- Claim C2: on plaintext of eight letters E under the key with slot pairs
(1,2) (3,4) (5,6) (7,8), the recovery pipeline of main returns the key
whose high bytes are all 0, not the original key: the ciphertext text kept
only the low bytes, so only the low key bytes can be recovered. -/
theorem key_recovery_zeroes_high_bytes :
    recoverKeyBytes (analyze_chars_frequencies FreqTable.new
        (encrypt (Message.from_string (List.replicate 8 0x45))
          (Key.from_bytes [(1, 2), (3, 4), (5, 6), (7, 8)])).text) =
      [(0, 2), (0, 4), (0, 6), (0, 8)] := by
  decide

/-- Claim C3: the byte pair (0xD8, 0x00), which the claim reads as the
unpaired surrogate 0xD800 and therefore as a decode failure, is in fact
reassembled by the code to the unit 0x0000, so decoding succeeds and
returns the non-empty text consisting of the NUL character. -/
theorem malformed_pair_decodes_nonempty :
    (Message.from_bytes [(0xD8, 0)]).text = [0] ∧
    reassembleUnits [(0xD8, 0)] = [0] := by
  refine ⟨by decide, by decide⟩

/-- Claim C4: the claim says decoding the encoding of any string restores
it. For the one-character string U+0100 the encoding is the byte pair
(1, 0), whose decoding is the NUL character, not U+0100. -/
theorem roundtrip_loses_high_byte :
    (Message.from_bytes (Message.from_string [0x100]).bytes).text = [0] := by
  decide

/-- Claim C5: the end-to-end scenario. Normalizing the string C a f U+00E9
gives CAFE; encrypting CAFE with the key (1,2) (3,4) (5,6) (7,8) gives
exactly the component-wise XOR of each letter's big-endian byte pair with
its key slot; decrypting that ciphertext with the same key gives CAFE. -/
theorem end_to_end_cafe :
    format_contents_model [0x43, 0x61, 0x66, 0xE9] = [0x43, 0x41, 0x46, 0x45] ∧
    (encrypt (Message.from_string [0x43, 0x41, 0x46, 0x45])
        (Key.from_bytes [(1, 2), (3, 4), (5, 6), (7, 8)])).bytes =
      [(0x00 ^^^ 0x01, 0x43 ^^^ 0x02), (0x00 ^^^ 0x03, 0x41 ^^^ 0x04),
       (0x00 ^^^ 0x05, 0x46 ^^^ 0x06), (0x00 ^^^ 0x07, 0x45 ^^^ 0x08)] ∧
    (decrypt (encrypt (Message.from_string [0x43, 0x41, 0x46, 0x45])
          (Key.from_bytes [(1, 2), (3, 4), (5, 6), (7, 8)]))
        (Key.from_bytes [(1, 2), (3, 4), (5, 6), (7, 8)])).text =
      [0x43, 0x41, 0x46, 0x45] := by
  refine ⟨by decide, by decide, by decide⟩

/-- Claim C6: the claim says applying the transform twice with the same key
restores the message. For the message built from the one-character string
U+0100 (a single UTF-16 code unit) and the all-zero key, the double
transform returns the byte pair (1, 0) together with the NUL text, so the
text field of the original message is not restored. -/
theorem double_transform_not_identity :
    (Message.from_string [0x100]).text = [0x100] ∧
    decrypt (decrypt (Message.from_string [0x100])
          (Key.from_bytes [(0, 0), (0, 0), (0, 0), (0, 0)]))
        (Key.from_bytes [(0, 0), (0, 0), (0, 0), (0, 0)]) =
      Message.mk [(1, 0)] [0] := by
  refine ⟨by decide, by decide⟩

/-- Claim C7: for every NFD map, every extension of the std character
functions outside ASCII, and every input string, every character of the
normalized string is an ASCII uppercase letter or an ASCII digit. -/
theorem format_contents_range (nfd : RStr → RStr) (alnumExt : Nat → Bool)
    (upperExt : Nat → List Nat) (s : RStr) (c : Nat)
    (hc : c ∈ format_contents nfd alnumExt upperExt s) :
    (0x41 ≤ c ∧ c ≤ 0x5A) ∨ (0x30 ≤ c ∧ c ≤ 0x39) := by
  unfold format_contents at hc
  rw [List.mem_flatMap] at hc
  obtain ⟨d, hd, hcd⟩ := hc
  have halnum := List.of_mem_filter hd
  have hd2 := List.mem_of_mem_filter hd
  have hdp := List.of_mem_filter hd2
  have hascii : d < 0x80 := by simpa using hdp
  rw [charIsAlphanumeric, if_pos hascii] at halnum
  have halnum2 := of_decide_eq_true halnum
  rw [charToUppercase, if_pos hascii] at hcd
  have hceq := List.mem_singleton.mp hcd
  subst hceq
  by_cases hl : 0x61 ≤ d ∧ d ≤ 0x7A
  · rw [if_pos hl]
    left
    omega
  · rw [if_neg hl]
    omega

/-- Witness for claim C7: the lowercase letter a normalizes to the
uppercase letter A, which the theorem places in the allowed range. -/
theorem format_contents_range_witness :
    0x41 ∈ format_contents nfd_model (fun _ => false) (fun c => [c]) [0x61] ∧
    ((0x41 ≤ 0x41 ∧ 0x41 ≤ 0x5A) ∨ (0x30 ≤ 0x41 ∧ 0x41 ≤ 0x39)) :=
  ⟨by decide,
   format_contents_range nfd_model (fun _ => false) (fun c => [c]) [0x61] 0x41
     (by decide)⟩

/-- Claim C8: in any slot of any frequency table whose mapping holds a
character whose (positive) count strictly exceeds the count of every other
character of that slot, the per-slot scan returns that character, whatever
order the entries of the mapping are scanned in (the mapping is quantified
as an arbitrary association list, covering every HashMap iteration
order; counts stored by add are always positive). -/
theorem get_most_frequent_chars_unique_max (t : FreqTable) (j : Nat)
    (hj : j < t.frequencies.length) (c n : Nat)
    (hmem : (c, n) ∈ t.frequencies.getD j []) (hn : 0 < n)
    (hmax : ∀ p ∈ t.frequencies.getD j [], p.1 ≠ c → p.2 < n) :
    (FreqTable.get_most_frequent_chars t).getD j 0 = c := by
  unfold FreqTable.get_most_frequent_chars
  rw [getD_map_lt slotMostFrequent t.frequencies j hj []]
  exact slotMostFrequent_unique_max _ c n hmem hn hmax

/-- Witness for claim C8: in slot 0 of a table where the letter A has
count 2 and the letter B count 1, the scan returns the letter A. -/
theorem get_most_frequent_chars_unique_max_witness :
    (0 < (FreqTable.mk [[(65, 2), (66, 1)], [], [], []]).frequencies.length ∧
      (65, 2) ∈ (FreqTable.mk [[(65, 2), (66, 1)], [], [], []]).frequencies.getD 0 [] ∧
      0 < 2) ∧
    (FreqTable.get_most_frequent_chars
        (FreqTable.mk [[(65, 2), (66, 1)], [], [], []])).getD 0 0 = 65 :=
  ⟨⟨by decide, by decide, by decide⟩,
   get_most_frequent_chars_unique_max (FreqTable.mk [[(65, 2), (66, 1)], [], [], []])
     0 (by decide) 65 2 (by decide) (by decide) (by decide)⟩

/-- Claim C9: for every byte-pair sequence, every code unit rebuilt by
Message::from_bytes is at most 0xFF (the checked shift by 8 of an 8-bit
value is always None, replaced by 0), such units always decode as UTF-16,
and the text of the message is the successful decode, so the empty-string
substitution branch is never taken. -/
theorem from_bytes_never_fails (bytes : List (Nat × Nat)) :
    (∀ u ∈ reassembleUnits bytes, u ≤ 0xFF) ∧
    decodeUtf16 (reassembleUnits bytes) = some ((Message.from_bytes bytes).text) := by
  have hb : ∀ u ∈ reassembleUnits bytes, u ≤ 0xFF := by
    rw [reassembleUnits_eq]
    intro u hu
    obtain ⟨p, _, rfl⟩ := List.mem_map.mp hu
    exact Nat.and_le_right
  have hd : decodeUtf16 (reassembleUnits bytes) = some (reassembleUnits bytes) :=
    decodeUtf16_of_lt _ (fun u hu => lt_of_le_of_lt (hb u hu) (by norm_num))
  refine ⟨hb, ?_⟩
  show decodeUtf16 (reassembleUnits bytes) =
    some ((decodeUtf16 (reassembleUnits bytes)).getD [])
  rw [hd]
  rfl

/-- Witness for claim C9: the surrogate-looking pair (0xD8, 0) and the pair
(1, 2) rebuild to units at most 0xFF and decode successfully. -/
theorem from_bytes_never_fails_witness :
    (∀ u ∈ reassembleUnits [(0xD8, 0), (1, 2)], u ≤ 0xFF) ∧
    decodeUtf16 (reassembleUnits [(0xD8, 0), (1, 2)]) =
      some ((Message.from_bytes [(0xD8, 0), (1, 2)]).text) :=
  from_bytes_never_fails [(0xD8, 0), (1, 2)]

/-- Claim C10: a slot whose mapping is empty yields the space character:
the scan starts from the pair (space, 0) and no entry replaces it. -/
theorem get_most_frequent_chars_empty_slot (t : FreqTable) (j : Nat)
    (hj : j < t.frequencies.length) (he : t.frequencies.getD j [] = []) :
    (FreqTable.get_most_frequent_chars t).getD j 0 = 0x20 := by
  unfold FreqTable.get_most_frequent_chars
  rw [getD_map_lt slotMostFrequent t.frequencies j hj [], he]
  rfl

/-- Witness for claim C10: every slot of a fresh table is empty and slot 1
yields the space character. -/
theorem get_most_frequent_chars_empty_slot_witness :
    (1 < FreqTable.new.frequencies.length ∧
      FreqTable.new.frequencies.getD 1 [] = []) ∧
    (FreqTable.get_most_frequent_chars FreqTable.new).getD 1 0 = 0x20 :=
  ⟨⟨by decide, by decide⟩,
   get_most_frequent_chars_empty_slot FreqTable.new 1 (by decide) (by decide)⟩

end Nicop
